import Mathlib

/-
  Verification of the keyword-extraction core of the obsidian-tag-generator
  plugin (src/keyword-extractor.ts, src/ai-service.ts), as a shallow
  embedding in Lean.

  JS strings are modelled as `List Char` (all characters involved in the
  patterns — Hangul syllables U+AC00..U+D7A3, ASCII letters and digits,
  the unit glyphs, whitespace — are BMP code points, so JavaScript's
  UTF-16 `length` coincides with the number of `Char`s for them).

  The regular-expression tokenizers are embedded as explicit scanners
  that reproduce the JS engine's leftmost-match / ordered-alternation /
  greedy-with-backtracking semantics for the concrete patterns of the
  source; each scanner documents the derivation next to its definition.
-/

namespace TagGen

abbrev Str := List Char

/-- character class `[가-힣]` (precomposed Hangul syllables). -/
def isHangul (c : Char) : Bool := 0xAC00 ≤ c.toNat && c.toNat ≤ 0xD7A3

/-- Class `[A-Z]`. -/
def isUpper (c : Char) : Bool := 'A' ≤ c && c ≤ 'Z'

/-- Class `[a-z]`. -/
def isLower (c : Char) : Bool := 'a' ≤ c && c ≤ 'z'

/-- Class `[a-zA-Z]`. -/
def isLetter (c : Char) : Bool := isUpper c || isLower c

/-- Class `\d`. -/
def isDigit (c : Char) : Bool := '0' ≤ c && c ≤ '9'

/-- JS `\w`, i.e. `[A-Za-z0-9_]`. -/
def isWordChar (c : Char) : Bool := isLetter c || isDigit c || c = '_'

/-- JS `\s` (ECMAScript WhiteSpace and LineTerminator characters:
tab, LF, VT, FF, CR, space, NBSP, U+1680, U+2000..U+200A, LS, PS,
U+202F, U+205F, U+3000, U+FEFF). -/
def isSpaceJS (c : Char) : Bool :=
  let n := c.toNat
  n = 0x20 || n = 0x9 || n = 0xA || n = 0xB || n = 0xC || n = 0xD ||
  n = 0xA0 || n = 0x1680 || (0x2000 <= n && n <= 0x200A) ||
  n = 0x2028 || n = 0x2029 || n = 0x202F || n = 0x205F || n = 0x3000 || n = 0xFEFF

/-- Leading-whitespace removal, first half of JS `String.prototype.trim`. -/
def dropLeading (s : Str) : Str := s.dropWhile isSpaceJS

/-- Trailing-whitespace removal, second half of JS `String.prototype.trim`. -/
def dropTrailing : Str → Str
  | [] => []
  | c :: t =>
    let r := dropTrailing t
    if r.isEmpty && isSpaceJS c then [] else c :: r

/-- JS `String.prototype.trim`. -/
def trim (s : Str) : Str := dropTrailing (dropLeading s)

/-- The Korean stopword set built in the `KeywordExtractor` constructor
(`this.stopwordsKo`), in source order. -/
def stopwordsKo : List Str :=
  [
   ['이'],
   ['그'],
   ['저'],
   ['것'],
   ['수'],
   ['등'],
   ['및'],
   ['의'],
   ['가'],
   ['을'],
   ['를'],
   ['에'],
   ['에', '서'],
   ['으', '로'],
   ['로'],
   ['와'],
   ['과'],
   ['도'],
   ['만'],
   ['하', '다'],
   ['있', '다'],
   ['없', '다'],
   ['되', '다'],
   ['이', '다'],
   ['아', '니', '다'],
   ['하', '고'],
   ['한', '다'],
   ['이', '는'],
   ['이', '하'],
   ['따', '라'],
   ['통', '해'],
   ['위', '한'],
   ['대', '한'],
   ['관', '한'],
   ['때', '문'],
   ['경', '우'],
   ['이', '후'],
   ['다', '른'],
   ['여', '러'],
   ['같', '은'],
   ['다', '양', '한'],
   ['중', '요', '한'],
   ['필', '요', '한'],
   ['가', '능', '한'],
   ['직', '접', '적', '인'],
   ['장', '기', '적', '인'],
   ['배', '경', '지', '식'],
   ['결', '론'],
   ['맥', '락'],
   ['관', '계']
  ]

/-- The English stopword set built in the constructor (`this.stopwordsEn`). -/
def stopwordsEn : List Str :=
  [
   ['t', 'h', 'e'],
   ['a'],
   ['a', 'n'],
   ['a', 'n', 'd'],
   ['o', 'r'],
   ['b', 'u', 't'],
   ['i', 'n'],
   ['o', 'n'],
   ['a', 't'],
   ['t', 'o'],
   ['f', 'o', 'r'],
   ['o', 'f'],
   ['w', 'i', 't', 'h'],
   ['b', 'y'],
   ['f', 'r', 'o', 'm'],
   ['i', 's'],
   ['w', 'a', 's'],
   ['a', 'r', 'e'],
   ['w', 'e', 'r', 'e'],
   ['b', 'e'],
   ['b', 'e', 'e', 'n'],
   ['b', 'e', 'i', 'n', 'g'],
   ['h', 'a', 'v', 'e'],
   ['h', 'a', 's'],
   ['h', 'a', 'd']
  ]

/-- The alternatives of `this.suffixPattern =
`/(?:은|는|…|니다)$/`, in the source's alternation order. -/
def suffixList : List Str :=
  [
   ['은'],
   ['는'],
   ['이'],
   ['가'],
   ['을'],
   ['를'],
   ['의'],
   ['에'],
   ['에', '서'],
   ['으', '로'],
   ['로'],
   ['와'],
   ['과'],
   ['도'],
   ['만'],
   ['부', '터'],
   ['까', '지'],
   ['처', '럼'],
   ['같', '이'],
   ['보', '다'],
   ['라', '고'],
   ['라', '는'],
   ['이', '라'],
   ['라', '며'],
   ['에', '도'],
   ['에', '는'],
   ['으', '로', '는'],
   ['에', '서', '는'],
   ['이', '나'],
   ['나'],
   ['든', '지'],
   ['든', '가'],
   ['이', '란'],
   ['란'],
   ['이', '면'],
   ['면'],
   ['하', '면'],
   ['다', '면'],
   ['라', '면'],
   ['해', '서'],
   ['해', '도'],
   ['하', '는'],
   ['하', '고'],
   ['하', '며'],
   ['해', '야'],
   ['입', '니', '다'],
   ['합', '니', '다'],
   ['됩', '니', '다'],
   ['습', '니', '다'],
   ['ㅂ', '니', '다'],
   ['니', '다']
  ]

/-- One pass of `cleaned.replace(this.suffixPattern, '')`.

Every alternative of the pattern is anchored at `$`, so an alternative
matches at position `i` exactly when it equals `w.drop i`; the JS engine
takes the leftmost matching position, i.e. it removes the LONGEST listed
suffix of `w` (alternation order is irrelevant here because all
alternatives matching at one position are the same string). If no listed
string is a suffix of `w`, `replace` returns `w` unchanged. -/
def stripOnce : Str → Str
  | [] => []
  | c :: rest => if (c :: rest) ∈ suffixList then [] else c :: stripOnce rest

/-- Fuel-indexed body of the `while` loop of `cleanKoreanWord`.

The loop `while (cleaned.length !== prevLength && cleaned.length >= 2)`
runs `stripOnce` as long as the previous pass changed the string
(`stripOnce` returns a prefix, so "same length" is the same as "equal")
and the current string still has ≥ 2 characters. Each productive pass
strictly shrinks the string, so `w.length` passes always suffice; the
fuel only realizes that bound. -/
def cleanAux : Nat → Str → Str
  | 0, w => w
  | fuel + 1, w =>
    if w.length < 2 then w
    else
      let s := stripOnce w
      if s = w then w else cleanAux fuel s

/-- Embedding of `KeywordExtractor.cleanKoreanWord`. -/
def cleanKoreanWord (w : Str) : Str := cleanAux w.length w

/-! ## Generic global-regex scan

`String.prototype.match(re)` with the `g` flag (and the `exec` loop used
for the company pattern) repeatedly finds the leftmost match from the
current position: on a match of length `L` it records the token and
resumes after the matched text, otherwise it advances one character.
`matchAt prev s` receives the character preceding the current position
(`none` at the start of the input), needed for `\b`, and returns the
recorded token together with the full-match length. All patterns in this
file match at least one character, so `max 1 L` equals `L`; it only makes
the fuel argument obviously sufficient. -/

def scanAux (m : Option Char → Str → Option (Str × Nat)) :
    Nat → Option Char → Str → List Str
  | 0, _, _ => []
  | fuel + 1, prev, s =>
    match s with
    | [] => []
    | c :: rest =>
      match m prev (c :: rest) with
      | some (tok, L) =>
        tok :: scanAux m fuel (((c :: rest).take (max 1 L)).getLast?)
          ((c :: rest).drop (max 1 L))
      | none => scanAux m fuel (some c) rest

def scan (m : Option Char → Str → Option (Str × Nat)) (s : Str) : List Str :=
  scanAux m s.length none s

/-- Boundary `\b` right before the current position, given the preceding character;
valid when the first matched character is a word character (true for every
`\b`-use below, which is always followed by `[A-Z]`). -/
def boundaryBefore (prev : Option Char) : Bool :=
  match prev with
  | none => true
  | some c => !isWordChar c

/-- Boundary `\b` right after a match whose last character is a word character:
holds at end of input or before a non-word character. -/
def boundaryAfter (s : Str) : Bool :=
  match s with
  | [] => true
  | c :: _ => !isWordChar c

/-- Matcher for `koPattern = /[가-힣]{2,}/g`: a greedy run of Hangul
syllables at the current position matches iff it has length ≥ 2. -/
def matchKo (_ : Option Char) (s : Str) : Option (Str × Nat) :=
  let r := s.takeWhile isHangul
  if 2 ≤ r.length then some (r, r.length) else none

/-- Matcher for `enPattern = /\b[A-Z][a-zA-Z]{2,}\b|\b[A-Z]{2,}\b/g`.

Alternative 1: after the initial `[A-Z]`, the greedy `[a-zA-Z]{2,}` takes
the maximal letter run; `\b` can only hold at the end of that run
(every shorter backtrack is followed by a letter, a word character), so
the alternative succeeds iff the run has length ≥ 2 and the character
after it is not a word character. Alternative 2 (tried second, at the
same position): same reasoning with the maximal `[A-Z]` run. -/
def matchEn (prev : Option Char) (s : Str) : Option (Str × Nat) :=
  match s with
  | [] => none
  | c :: rest =>
    if boundaryBefore prev && isUpper c then
      let r := rest.takeWhile isLetter
      if 2 ≤ r.length && boundaryAfter (rest.drop r.length) then
        some (c :: r, r.length + 1)
      else
        let u := (c :: rest).takeWhile isUpper
        if 2 ≤ u.length && boundaryAfter ((c :: rest).drop u.length) then
          some (u, u.length)
        else none
    else none

/-- Class `[가-힣A-Za-z]`, the name characters of the company pattern. -/
def isCompanyChar (c : Char) : Bool := isHangul c || isLetter c

/-- Matcher for `companyPattern =
`/(?:주식회사|㈜)\s*([가-힣A-Za-z]+(?:\s+[가-힣A-Za-z]+)?)/g`;
the recorded token is capture group 1 (`match[1]`), while the reported
length is the full match.

After the literal prefix, `\s*` greedily takes the whitespace run (a
shorter run would leave a whitespace character where `[가-힣A-Za-z]+`
must match, so backtracking it cannot help); the first name word is the
maximal name-character run and must be nonempty; the optional second
word requires at least one whitespace then a nonempty name run, again
with no productive backtracking. -/
def matchCompany (_ : Option Char) (s : Str) : Option (Str × Nat) :=
  let pre : Option Nat :=
    if s.take 4 = ['주', '식', '회', '사'] then some 4
    else if s.take 1 = ['㈜'] then some 1
    else none
  match pre with
  | none => none
  | some p =>
    let t1 := s.drop p
    let sp := t1.takeWhile isSpaceJS
    let t2 := t1.drop sp.length
    let g1 := t2.takeWhile isCompanyChar
    if g1.isEmpty then none
    else
      let t3 := t2.drop g1.length
      let w := t3.takeWhile isSpaceJS
      let g2 := (t3.drop w.length).takeWhile isCompanyChar
      if 1 ≤ w.length && 1 ≤ g2.length then
        some (g1 ++ w ++ g2, p + sp.length + g1.length + w.length + g2.length)
      else
        some (g1, p + sp.length + g1.length)

/-- One `(?:\s+[A-Z][a-z]+)` repetition group of the capitalized-name
pattern: whitespace run (≥ 1), an uppercase letter, a lowercase run (≥ 1). -/
def parseReps : Nat → Str → List (Str × Char × Str)
  | 0, _ => []
  | fuel + 1, s =>
    let w := s.takeWhile isSpaceJS
    if 1 ≤ w.length then
      match s.drop w.length with
      | [] => []
      | u :: rest2 =>
        if isUpper u then
          let lo := rest2.takeWhile isLower
          if 1 ≤ lo.length then (w, u, lo) :: parseReps fuel (rest2.drop lo.length)
          else []
        else []
    else []

def repLen (r : Str × Char × Str) : Nat := r.1.length + 1 + r.2.2.length

def repsLen (rs : List (Str × Char × Str)) : Nat := (rs.map repLen).sum

def repsFlat : List (Str × Char × Str) → Str
  | [] => []
  | r :: rest => r.1 ++ r.2.1 :: r.2.2 ++ repsFlat rest

/-- Matcher for `capitalizedPattern = /\b[A-Z][a-z]+(?:\s+[A-Z][a-z]+)+\b/g`.

The `+`-group is parsed greedily: each repetition is deterministic
(maximal whitespace run, uppercase letter, maximal lowercase run — every
backtrack inside a repetition lands before a character the next element
cannot match). After the last repetition the final `\b` is checked: if
it fails, the engine backtracks by dropping the last repetition, after
which `\b` necessarily holds (the next character is the dropped
repetition's whitespace); with only one repetition left, dropping it
violates the `+` and the whole attempt at this position fails. -/
def matchCapitalized (prev : Option Char) (s : Str) : Option (Str × Nat) :=
  match s with
  | [] => none
  | c :: rest =>
    if boundaryBefore prev && isUpper c then
      let m1 := rest.takeWhile isLower
      if 1 ≤ m1.length then
        let tail := rest.drop m1.length
        let reps := parseReps tail.length tail
        if reps.isEmpty then none
        else if boundaryAfter (tail.drop (repsLen reps)) then
          some (c :: m1 ++ repsFlat reps, 1 + m1.length + repsLen reps)
        else if 2 ≤ reps.length then
          some (c :: m1 ++ repsFlat reps.dropLast, 1 + m1.length + repsLen reps.dropLast)
        else none
      else none
    else none

/-- Matcher for `acronymPattern = /\b[A-Z]{2,}\b/g` (also alternative 2 of
the general English pattern, but scanned separately by
`extractProperNouns`). -/
def matchAcronym (prev : Option Char) (s : Str) : Option (Str × Nat) :=
  let u := s.takeWhile isUpper
  if boundaryBefore prev && 2 ≤ u.length && boundaryAfter (s.drop u.length) then
    some (u, u.length)
  else none

/-- Matcher for `moneyPattern = /\d+(?:조|억|만)?원/g`. `\d+` greedily
takes the maximal digit run (a shorter run is followed by a digit, which
neither the optional unit nor `원` can match); the optional magnitude
unit is taken if present and then `원` is required. -/
def matchMoney (_ : Option Char) (s : Str) : Option (Str × Nat) :=
  let d := s.takeWhile isDigit
  if d.isEmpty then none
  else
    match s.drop d.length with
    | [] => none
    | u :: t2 =>
      if u = '조' || u = '억' || u = '만' then
        match t2 with
        | [] => none
        | w :: _ => if w = '원' then some (d ++ [u, '원'], d.length + 2) else none
      else if u = '원' then some (d ++ ['원'], d.length + 1)
      else none

/-- Pattern `\d{1,2}월\d{1,2}일` at fixed digit counts `k1`, `k2`. -/
def dateMD (s : Str) (k1 k2 : Nat) : Option (Str × Nat) :=
  let a := s.take k1
  if a.length = k1 && a.all isDigit then
    match s.drop k1 with
    | [] => none
    | m :: t =>
      if m = '월' then
        let b := t.take k2
        if b.length = k2 && b.all isDigit then
          match t.drop k2 with
          | [] => none
          | d :: _ =>
            if d = '일' then some (a ++ '월' :: b ++ ['일'], k1 + 1 + k2 + 1)
            else none
        else none
      else none
  else none

/-- Matcher for `datePattern = /\d{4}년|\d{1,2}월\d{1,2}일/g`: the first
alternative is exact, the second tries the greedy `{1,2}` counts in
backtracking order (2,2), (2,1), (1,2), (1,1). -/
def matchDate (_ : Option Char) (s : Str) : Option (Str × Nat) :=
  let d4 := s.take 4
  let alt1 : Option (Str × Nat) :=
    if d4.length = 4 && d4.all isDigit then
      match s.drop 4 with
      | [] => none
      | y :: _ => if y = '년' then some (d4 ++ ['년'], 5) else none
    else none
  match alt1 with
  | some r => some r
  | none => (((dateMD s 2 2).orElse fun _ => dateMD s 2 1).orElse fun _ =>
      dateMD s 1 2).orElse fun _ => dateMD s 1 1

/-- Number of `(?:,\d{3})` repetitions from the current position. -/
def parseThousands : Nat → Str → Nat
  | 0, _ => 0
  | fuel + 1, s =>
    match s with
    | ',' :: t =>
      let b := t.take 3
      if b.length = 3 && b.all isDigit then 1 + parseThousands fuel (t.drop 3) else 0
    | _ => 0

/-- Matcher for `largeNumPattern = /\d+(?:,\d{3})*(?:명|건|회|개)/g`. `\d+`
greedily takes the maximal digit run (shortening it leaves a digit where
`,` or a unit must match); the `*`-group count is deterministic and only
its greedy maximum can be followed by a unit (after fewer repetitions the
next character is the `,` of the following repetition). -/
def matchLargeNum (_ : Option Char) (s : Str) : Option (Str × Nat) :=
  let d := s.takeWhile isDigit
  if d.isEmpty then none
  else
    let t := s.drop d.length
    let k := parseThousands t.length t
    match t.drop (4 * k) with
    | [] => none
    | u :: _ =>
      if u = '명' || u = '건' || u = '회' || u = '개' then
        some (d ++ t.take (4 * k) ++ [u], d.length + 4 * k + 1)
      else none

/-- Embedding of `KeywordExtractor.extractGeneralKeywords`: cleaned Korean runs that
keep length ≥ 2 and are not Korean stopwords, then English
capitalized/acronym tokens whose lowercase form is not an English
stopword. -/
def extractGeneralKeywords (text : Str) : List Str :=
  ((scan matchKo text).map cleanKoreanWord).filter
    (fun w => decide (2 ≤ w.length ∧ w ∉ stopwordsKo)) ++
  (scan matchEn text).filter (fun w => decide (w.map Char.toLower ∉ stopwordsEn))

/-- Embedding of `KeywordExtractor.extractProperNouns`: trimmed company captures of
length ≥ 2, multi-word capitalized names, acronyms; the collected list is
re-trimmed and empties are dropped. -/
def extractProperNouns (text : Str) : List Str :=
  let companies := ((scan matchCompany text).map trim).filter
    (fun c => decide (2 ≤ c.length))
  let caps := scan matchCapitalized text
  let acrs := scan matchAcronym text
  ((companies ++ caps ++ acrs).map trim).filter (fun p => decide (0 < p.length))

/-- Embedding of `KeywordExtractor.extractNumbers`: money amounts, then dates, then
large counted numbers, concatenated. -/
def extractNumbers (text : Str) : List Str :=
  scan matchMoney text ++ scan matchDate text ++ scan matchLargeNum text


/-! ## Frequency counting and ranking -/

/-- One step of `countFrequency`'s loop,
`freq[keyword] = (freq[keyword] || 0) + 1` on a plain JS object: an
existing key's value is bumped in place, a new key is appended (JS
objects preserve insertion order for non-array-index string keys; the
array-index exception is handled in `jsEntries`). -/
def bump (f : List (Str × Nat)) (k : Str) : List (Str × Nat) :=
  if k ∈ f.map Prod.fst then
    f.map (fun p => if p.1 = k then (p.1, p.2 + 1) else p)
  else f ++ [(k, 1)]

/-- Embedding of `KeywordExtractor.countFrequency`. -/
def countFrequency (keywords : List Str) : List (Str × Nat) :=
  keywords.foldl bump []

/-- Numeric value of a digit string (used only for the array-index key
order of `Object.entries`). -/
def strToNat (s : Str) : Nat := s.foldl (fun n c => 10 * n + (c.toNat - 48)) 0

/-- Whether a JS object key is an array index (a canonical numeric string
below 2^32 - 1): such keys are enumerated first, in ascending numeric
order, by `Object.entries`. No keyword produced by this extractor is one
(every keyword contains a non-digit character), proved below. -/
def isArrayIndex (s : Str) : Bool :=
  s.all isDigit && !s.isEmpty && (!(s.head? == some '0') || s.length == 1) &&
  Nat.blt (strToNat s) 4294967295

/-- Stable insertion: `x` goes immediately before the first element `y`
with `r x y`. -/
def insertBy (r : (Str × Nat) → (Str × Nat) → Bool) (x : Str × Nat) :
    List (Str × Nat) → List (Str × Nat)
  | [] => [x]
  | y :: ys => if r x y then x :: y :: ys else y :: insertBy r x ys

/-- Stable insertion sort. ES2019 `Array.prototype.sort` is required to be
stable, and for a comparator inducing a total preorder every stable sort
produces the same list, so insertion sort is an exact model of
`entries.sort(cmp)`. -/
def sortBy (r : (Str × Nat) → (Str × Nat) → Bool) :
    List (Str × Nat) → List (Str × Nat)
  | [] => []
  | x :: xs => insertBy r x (sortBy r xs)

/-- The comparator `(a, b) => b[1] - a[1]` (descending count): placing `x`
before `y` is allowed iff `y`'s count is ≤ `x`'s. -/
def countGe (x y : Str × Nat) : Bool := Nat.ble y.2 x.2

/-- Ascending numeric key order for the array-index keys of a JS object. -/
def numLe (x y : Str × Nat) : Bool := Nat.ble (strToNat x.1) (strToNat y.1)

/-- Embedding of `Object.entries(freq)`: array-index keys first in ascending numeric
order, remaining string keys in insertion order. -/
def jsEntries (f : List (Str × Nat)) : List (Str × Nat) :=
  sortBy numLe (f.filter fun p => isArrayIndex p.1) ++
    (f.filter fun p => !isArrayIndex p.1)

/-- Embedding of `list.slice(0, e)` of JS: a non-negative `e` keeps the first `e`
elements (clamped to the length), a negative `e` counts from the end
(`e + length`, clamped below at 0). -/
def jsSlice0 (l : List Str) (e : Int) : List Str :=
  l.take (if e < 0 then ((l.length : Int) + e).toNat else e.toNat)

/-- Embedding of `KeywordExtractor.getTopKeywords`:
`Object.entries(freq).sort((a, b) => b[1] - a[1]).map(([k]) => k).slice(0, topN)`. -/
def getTopKeywords (freq : List (Str × Nat)) (topN : Int) : List Str :=
  jsSlice0 ((sortBy countGe (jsEntries freq)).map Prod.fst) topN

/-! ## The extractor -/

/-- The state of a `KeywordExtractor` instance. The stopword sets and the
suffix pattern built by the constructor are fixed values, modelled by the
top-level constants above; `maxTags` is the only per-instance datum. -/
structure KeywordExtractor where
  maxTags : Int

/-- Embedding of `new KeywordExtractor(maxTags)`: the constructor body is
`this.maxTags = maxTags` (plus the fixed sets) — the argument is stored
unconditionally, with no validation, clamping, or error path. -/
def KeywordExtractor.make (maxTags : Int) : KeywordExtractor := ⟨maxTags⟩

/-- The weighted candidate sequence built by `extractKeywords` before
counting: title general keywords three times (skipped when `title` is
empty — the JS truthiness test `if (title)` on a string), proper nouns
twice, body general keywords once, numeric/date tokens once. -/
def weightedKeywords (text title : Str) : List Str :=
  (if title = [] then []
   else
     extractGeneralKeywords title ++ extractGeneralKeywords title ++
       extractGeneralKeywords title) ++
  (extractProperNouns text ++ extractProperNouns text) ++
  extractGeneralKeywords text ++
  extractNumbers text

/-- Embedding of `KeywordExtractor.extractKeywords`. -/
def KeywordExtractor.extractKeywords (self : KeywordExtractor)
    (text title : Str) : List Str :=
  getTopKeywords (countFrequency (weightedKeywords text title)) self.maxTags

/-! ## The AI refinement collaborator (src/ai-service.ts)

`AIService.refineTags` is async and network-bound. Its outcome is
determined by the settings, the candidate tags, and what the single
`fetch` to the completions endpoint produced; the latter is abstracted
as an explicit `FetchOutcome` input: the promise rejecting
(`networkError`, also covering any other exception inside the `try` —
all land in the same `catch`), a non-ok response (the code throws and
the same `catch` recovers), or a response body `content` together with
what `JSON.parse(content)` yielded (an array, a non-array value, or a
`SyntaxError`). -/

inductive JsonVal where
  | jstr : Str → JsonVal
  | other : JsonVal
deriving DecidableEq

inductive ParseOutcome where
  | array : List JsonVal → ParseOutcome
  | notArray : ParseOutcome
  | err : ParseOutcome
deriving DecidableEq

inductive FetchOutcome where
  | networkError : FetchOutcome
  | httpError : FetchOutcome
  | success : Str → ParseOutcome → FetchOutcome
deriving DecidableEq

structure AIServiceSettings where
  openaiApiKey : Str
  model : Str
  useAI : Bool

structure AIService where
  settings : AIServiceSettings

/-- Matcher for `/"([^"]+)"/g` used by the fallback extraction of quoted
substrings: a quote, a maximal nonempty run of non-quote characters
(greedy `[^"]+` can only end before a quote), and the closing quote. -/
def matchQuoted (_ : Option Char) (s : Str) : Option (Str × Nat) :=
  match s with
  | '"' :: rest =>
    let inner := rest.takeWhile (fun c => !(c = '"'))
    if 1 ≤ inner.length then
      match rest.drop inner.length with
      | '"' :: _ => some ('"' :: inner ++ ['"'], inner.length + 2)
      | _ => none
    else none
  | _ => none

def quotedMatches (content : Str) : List Str := scan matchQuoted content

/-- Embedding of `AIService.refineTags(tags, noteContent)`. The function never throws:
every failure path returns the original `tags`. -/
def AIService.refineTags (self : AIService) (tags : List Str)
    (_noteContent : Str) (outcome : FetchOutcome) : List Str :=
  if !self.settings.useAI || self.settings.openaiApiKey = [] then tags
  else
    match outcome with
    | .networkError => tags
    | .httpError => tags
    | .success content parsed =>
      match parsed with
      | .array items =>
        items.filterMap fun v =>
          match v with
          | .jstr s => if 0 < s.length then some s else none
          | .other => none
      | .notArray => tags
      | .err =>
        let ms := quotedMatches content
        if ms.isEmpty then tags
        else (ms.map fun m => m.filter fun c => !(c = '"')).filter
          (fun t => decide (0 < t.length))


/-! ## Lemmas about the suffix stripper -/

theorem stripOnce_length_le (w : Str) : (stripOnce w).length ≤ w.length := by
  induction w with
  | nil => simp [stripOnce]
  | cons c rest ih =>
    simp only [stripOnce]
    split
    · simp
    · simpa using Nat.succ_le_succ ih

theorem stripOnce_length_lt (w : Str) (h : stripOnce w ≠ w) :
    (stripOnce w).length < w.length := by
  induction w with
  | nil => simp [stripOnce] at h
  | cons c rest ih =>
    by_cases hc : (c :: rest) ∈ suffixList
    · simp [stripOnce, hc]
    · simp only [stripOnce, if_neg hc] at h ⊢
      have hr : stripOnce rest ≠ rest := fun he => h (by rw [he])
      simpa using Nat.succ_lt_succ (ih hr)

theorem mem_stripOnce {c : Char} {w : Str} (h : c ∈ stripOnce w) : c ∈ w := by
  induction w with
  | nil => simpa [stripOnce] using h
  | cons a rest ih =>
    by_cases hc : (a :: rest) ∈ suffixList
    · simp [stripOnce, hc] at h
    · simp only [stripOnce, if_neg hc] at h
      rcases List.mem_cons.mp h with h | h
      · simp [h]
      · exact List.mem_cons_of_mem _ (ih h)

theorem cleanAux_congr : ∀ (f1 f2 : Nat) (w : Str), w.length ≤ f1 →
    w.length ≤ f2 → cleanAux f1 w = cleanAux f2 w := by
  intro f1
  induction f1 with
  | zero =>
    intro f2 w h1 h2
    have hw : w = [] := List.eq_nil_of_length_eq_zero (Nat.le_zero.mp h1)
    subst hw
    cases f2 <;> simp [cleanAux]
  | succ n ih =>
    intro f2 w h1 h2
    cases f2 with
    | zero =>
      have hw : w = [] := List.eq_nil_of_length_eq_zero (Nat.le_zero.mp h2)
      subst hw
      simp [cleanAux]
    | succ m =>
      simp only [cleanAux]
      split
      · rfl
      · split
        · rfl
        · rename_i hlen hne
          have hlt : (stripOnce w).length < w.length := stripOnce_length_lt w hne
          exact ih m (stripOnce w)
            (Nat.le_of_lt_succ (Nat.lt_of_lt_of_le hlt h1))
            (Nat.le_of_lt_succ (Nat.lt_of_lt_of_le hlt h2))

/-- The loop equation of `cleanKoreanWord`: return words shorter than two
characters unchanged, otherwise strip one suffix and repeat unless the
pass was a fixed point. -/
theorem cleanKoreanWord_eq (w : Str) :
    cleanKoreanWord w =
      if w.length < 2 then w
      else if stripOnce w = w then w
      else cleanKoreanWord (stripOnce w) := by
  unfold cleanKoreanWord
  cases hl : w.length with
  | zero =>
    have hw : w = [] := List.eq_nil_of_length_eq_zero hl
    subst hw
    simp [cleanAux]
  | succ n =>
    rw [← hl]
    rw [show cleanAux w.length w = cleanAux (n + 1) w by rw [hl]]
    simp only [cleanAux]
    split
    · rfl
    · split
      · rfl
      · rename_i hlen hne
        have hlt : (stripOnce w).length < w.length := stripOnce_length_lt w hne
        exact cleanAux_congr n (stripOnce w).length (stripOnce w)
          (by omega) (Nat.le_refl _)

theorem mem_cleanKoreanWord_aux : ∀ (n : Nat) (w : Str), w.length ≤ n →
    ∀ {c : Char}, c ∈ cleanKoreanWord w → c ∈ w := by
  intro n
  induction n with
  | zero =>
    intro w hw c h
    have : w = [] := List.eq_nil_of_length_eq_zero (Nat.le_zero.mp hw)
    subst this
    rw [cleanKoreanWord_eq] at h
    simpa using h
  | succ m ih =>
    intro w hw c h
    rw [cleanKoreanWord_eq] at h
    split at h
    · exact h
    · split at h
      · exact h
      · rename_i hlen hne
        have hlt : (stripOnce w).length < w.length := stripOnce_length_lt w hne
        exact mem_stripOnce (ih (stripOnce w) (by omega) h)

theorem mem_cleanKoreanWord {c : Char} {w : Str}
    (h : c ∈ cleanKoreanWord w) : c ∈ w :=
  mem_cleanKoreanWord_aux w.length w (Nat.le_refl _) h

theorem cleanKoreanWord_final_aux : ∀ (n : Nat) (w : Str), w.length ≤ n →
    (cleanKoreanWord w).length < 2 ∨
      stripOnce (cleanKoreanWord w) = cleanKoreanWord w := by
  intro n
  induction n with
  | zero =>
    intro w hw
    have : w = [] := List.eq_nil_of_length_eq_zero (Nat.le_zero.mp hw)
    subst this
    rw [cleanKoreanWord_eq]
    simp
  | succ m ih =>
    intro w hw
    rw [cleanKoreanWord_eq]
    split
    · left
      assumption
    · split
      · right
        assumption
      · rename_i hlen hne
        have hlt : (stripOnce w).length < w.length := stripOnce_length_lt w hne
        exact ih (stripOnce w) (by omega)

/-- A value returned by `cleanKoreanWord` is final: it is shorter than two
characters, or a fixed point of a stripping pass. -/
theorem cleanKoreanWord_final (w : Str) :
    (cleanKoreanWord w).length < 2 ∨
      stripOnce (cleanKoreanWord w) = cleanKoreanWord w :=
  cleanKoreanWord_final_aux w.length w (Nat.le_refl _)


/-! ## Generic facts about `scan` and `trim` -/

theorem mem_scanAux {m : Option Char → Str → Option (Str × Nat)}
    {Q : Str → Prop}
    (hm : ∀ prev s tok L, m prev s = some (tok, L) → Q tok) :
    ∀ (fuel : Nat) (prev : Option Char) (s : Str) (tok : Str),
      tok ∈ scanAux m fuel prev s → Q tok := by
  intro fuel
  induction fuel with
  | zero => intro prev s tok h; simp [scanAux] at h
  | succ n ih =>
    intro prev s tok h
    match s with
    | [] => simp [scanAux] at h
    | c :: rest =>
      simp only [scanAux] at h
      cases hm2 : m prev (c :: rest) with
      | none =>
        rw [hm2] at h
        exact ih _ _ _ h
      | some r =>
        rw [hm2] at h
        rcases List.mem_cons.mp h with h | h
        · subst h
          exact hm prev (c :: rest) r.1 r.2 (by rw [hm2])
        · exact ih _ _ _ h

theorem mem_scan {m : Option Char → Str → Option (Str × Nat)}
    {Q : Str → Prop}
    (hm : ∀ prev s tok L, m prev s = some (tok, L) → Q tok)
    {s tok : Str} (h : tok ∈ scan m s) : Q tok :=
  mem_scanAux hm s.length none s tok h

theorem mem_dropTrailing {c : Char} : ∀ {s : Str}, c ∈ dropTrailing s → c ∈ s := by
  intro s
  induction s with
  | nil => simp [dropTrailing]
  | cons a t ih =>
    intro h
    simp only [dropTrailing] at h
    split at h
    · simp at h
    · rcases List.mem_cons.mp h with h | h
      · simp [h]
      · exact List.mem_cons_of_mem _ (ih h)

theorem mem_trim {c : Char} {s : Str} (h : c ∈ trim s) : c ∈ s :=
  (List.dropWhile_sublist isSpaceJS).subset (mem_dropTrailing h)


theorem dropTrailing_eq_self {s : Str} (h : ∀ c ∈ s, isSpaceJS c = false) :
    dropTrailing s = s := by
  induction s with
  | nil => rfl
  | cons a t ih =>
    have ha : isSpaceJS a = false := h a (by simp)
    have ht := ih (fun c hc => h c (List.mem_cons_of_mem _ hc))
    simp [dropTrailing, ht, ha]

theorem dropTrailing_ne_nil {b : Char} {s : Str} (hb : b ∈ s)
    (hbs : isSpaceJS b = false) : dropTrailing s ≠ [] := by
  induction s with
  | nil => simp at hb
  | cons a t ih =>
    simp only [dropTrailing]
    rcases List.mem_cons.mp hb with h | h
    · subst h
      split
      · rename_i hcond
        rw [hbs] at hcond
        simp at hcond
      · simp
    · have := ih h
      split
      · rename_i hcond
        simp only [Bool.and_eq_true, List.isEmpty_iff] at hcond
        exact absurd hcond.1 this
      · simp

theorem dropTrailing_idem (s : Str) :
    dropTrailing (dropTrailing s) = dropTrailing s := by
  induction s with
  | nil => rfl
  | cons a t ih =>
    simp only [dropTrailing]
    split
    · rfl
    · rename_i hcond
      simp only [dropTrailing, ih]
      rw [if_neg hcond]

theorem head?_dropTrailing (s : Str) :
    dropTrailing s = [] ∨ (dropTrailing s).head? = s.head? := by
  cases s with
  | nil => left; rfl
  | cons a t =>
    simp only [dropTrailing]
    split
    · left; rfl
    · right; rfl

theorem trim_cons {a : Char} {t : Str} (ha : isSpaceJS a = false) :
    trim (a :: t) = a :: dropTrailing t := by
  have h1 : dropLeading (a :: t) = a :: t := by
    simp [dropLeading, List.dropWhile_cons, ha]
  simp only [trim, h1, dropTrailing]
  split
  · rename_i hcond
    rw [ha] at hcond
    simp at hcond
  · rfl

theorem trim_length_two {a b : Char} {t : Str} (ha : isSpaceJS a = false)
    (hb : b ∈ t) (hbs : isSpaceJS b = false) : 2 ≤ (trim (a :: t)).length := by
  rw [trim_cons ha]
  have hne := dropTrailing_ne_nil hb hbs
  have : 1 ≤ (dropTrailing t).length := by
    cases hdt : dropTrailing t with
    | nil => exact absurd hdt hne
    | cons x xs => simp
  simp only [List.length_cons]
  omega

theorem trim_eq_self {s : Str} (h : ∀ c ∈ s, isSpaceJS c = false) :
    trim s = s := by
  have h1 : dropLeading s = s := by
    cases s with
    | nil => rfl
    | cons a t => simp [dropLeading, List.dropWhile_cons, h a (by simp)]
  simp only [trim, h1]
  exact dropTrailing_eq_self h

theorem trim_idem (s : Str) : trim (trim s) = trim s := by
  cases hts : trim s with
  | nil => simp [trim, dropLeading, dropTrailing]
  | cons a t =>
    have ha : isSpaceJS a = false := by
      have h1 : (trim s).head? = some a := by rw [hts]; rfl
      have h2 : (dropLeading s).head? = some a := by
        rcases head?_dropTrailing (dropLeading s) with h | h
        · rw [show trim s = dropTrailing (dropLeading s) from rfl, h] at hts
          simp at hts
        · rw [show trim s = dropTrailing (dropLeading s) from rfl] at h1
          rw [← h, h1]
      cases hdl : dropLeading s with
      | nil => rw [hdl] at h2; simp at h2
      | cons x xs =>
        rw [hdl] at h2
        simp only [List.head?_cons, Option.some.injEq] at h2
        subst h2
        have := List.head?_dropWhile_not isSpaceJS s
        rw [show dropLeading s = List.dropWhile isSpaceJS s from rfl] at hdl
        rw [hdl] at this
        simpa using this
    rw [← hts, show trim (trim s) = dropTrailing (dropLeading (trim s)) from rfl]
    have h1 : dropLeading (trim s) = trim s := by
      rw [hts]
      simp [dropLeading, List.dropWhile_cons, ha]
    rw [h1, show trim s = dropTrailing (dropLeading s) from rfl,
      dropTrailing_idem]



/-! ## Character-class arithmetic -/

theorem isSpaceJS_false_of_range {c : Char} (h1 : 48 ≤ c.toNat)
    (h2 : c.toNat ≤ 122) : isSpaceJS c = false := by
  simp only [isSpaceJS, Bool.or_eq_false_iff, Bool.and_eq_false_iff,
    decide_eq_false_iff_not]
  omega

theorem upper_range {c : Char} (h : isUpper c = true) :
    65 ≤ c.toNat ∧ c.toNat ≤ 90 := by
  simp only [isUpper, Bool.and_eq_true, decide_eq_true_eq] at h
  obtain ⟨h1, h2⟩ := h
  rw [Char.le_def] at h1 h2
  exact ⟨h1, h2⟩

theorem lower_range {c : Char} (h : isLower c = true) :
    97 ≤ c.toNat ∧ c.toNat ≤ 122 := by
  simp only [isLower, Bool.and_eq_true, decide_eq_true_eq] at h
  obtain ⟨h1, h2⟩ := h
  rw [Char.le_def] at h1 h2
  exact ⟨h1, h2⟩

theorem digit_range {c : Char} (h : isDigit c = true) :
    48 ≤ c.toNat ∧ c.toNat ≤ 57 := by
  simp only [isDigit, Bool.and_eq_true, decide_eq_true_eq] at h
  obtain ⟨h1, h2⟩ := h
  rw [Char.le_def] at h1 h2
  exact ⟨h1, h2⟩

theorem hangul_range {c : Char} (h : isHangul c = true) :
    0xAC00 ≤ c.toNat ∧ c.toNat ≤ 0xD7A3 := by
  simp only [isHangul, Bool.and_eq_true, decide_eq_true_eq] at h
  exact h

theorem letter_range {c : Char} (h : isLetter c = true) :
    (65 ≤ c.toNat ∧ c.toNat ≤ 90) ∨ (97 ≤ c.toNat ∧ c.toNat ≤ 122) := by
  simp only [isLetter, Bool.or_eq_true] at h
  rcases h with h | h
  · exact Or.inl (upper_range h)
  · exact Or.inr (lower_range h)

theorem isSpaceJS_false_of_upper (c : Char) (h : isUpper c = true) :
    isSpaceJS c = false := by
  have := upper_range h
  exact isSpaceJS_false_of_range (by omega) (by omega)

theorem isSpaceJS_false_of_lower (c : Char) (h : isLower c = true) :
    isSpaceJS c = false := by
  have := lower_range h
  exact isSpaceJS_false_of_range (by omega) (by omega)

theorem isDigit_false_of_lower (c : Char) (h : isLower c = true) :
    isDigit c = false := by
  cases hd : isDigit c with
  | false => rfl
  | true =>
    have h1 := digit_range hd
    have h2 := lower_range h
    omega

theorem isDigit_false_of_upper (c : Char) (h : isUpper c = true) :
    isDigit c = false := by
  cases hd : isDigit c with
  | false => rfl
  | true =>
    have h1 := digit_range hd
    have h2 := upper_range h
    omega

theorem isDigit_false_of_letter (c : Char) (h : isLetter c = true) :
    isDigit c = false := by
  cases hd : isDigit c with
  | false => rfl
  | true =>
    have h1 := digit_range hd
    have h2 := letter_range h
    rcases h2 with h2 | h2 <;> omega

theorem isDigit_false_of_hangul (c : Char) (h : isHangul c = true) :
    isDigit c = false := by
  cases hd : isDigit c with
  | false => rfl
  | true =>
    have h1 := digit_range hd
    have h2 := hangul_range h
    omega

theorem isSpaceJS_false_of_hangul (c : Char) (h : isHangul c = true) :
    isSpaceJS c = false := by
  have := hangul_range h
  simp only [isSpaceJS, Bool.or_eq_false_iff, Bool.and_eq_false_iff,
    decide_eq_false_iff_not]
  omega

theorem isSpaceJS_false_of_letter (c : Char) (h : isLetter c = true) :
    isSpaceJS c = false := by
  have := letter_range h
  exact isSpaceJS_false_of_range (by omega) (by omega)

theorem toLower_of_hangul {c : Char} (h : isHangul c = true) :
    c.toLower = c := by
  have := hangul_range h
  simp only [Char.toLower]
  rw [if_neg (by omega)]

theorem toLower_range {c : Char} (h : isLetter c = true) :
    97 ≤ c.toLower.toNat ∧ c.toLower.toNat ≤ 122 := by
  rcases letter_range h with hr | hr
  · simp only [Char.toLower]
    rw [if_pos (by omega)]
    have hv : (c.toNat + 32).isValidChar := Or.inl (by omega)
    rw [Char.ofNat, dif_pos hv]
    have : (Char.ofNatAux (c.toNat + 32) hv).toNat = c.toNat + 32 := rfl
    rw [this]
    omega
  · simp only [Char.toLower]
    rw [if_neg (by omega)]
    exact hr

/-! ## Shape of the tokens produced by each matcher -/

theorem matchKo_spec {prev : Option Char} {s tok : Str} {L : Nat}
    (h : matchKo prev s = some (tok, L)) :
    2 ≤ tok.length ∧ ∀ c ∈ tok, isHangul c = true := by
  unfold matchKo at h
  simp only at h
  split at h
  · rename_i hlen
    injection h with h1
    injection h1 with h1 h2
    subst h1
    exact ⟨hlen, fun c hc => List.mem_takeWhile_imp hc⟩
  · exact absurd h (by simp)

theorem matchEn_spec {prev : Option Char} {s tok : Str} {L : Nat}
    (h : matchEn prev s = some (tok, L)) :
    2 ≤ tok.length ∧ ∀ c ∈ tok, isLetter c = true := by
  unfold matchEn at h
  match s with
  | [] => exact absurd h (by simp)
  | c :: rest =>
    simp only at h
    split at h
    · rename_i hbnd
      split at h
      · rename_i hcond
        injection h with h1
        injection h1 with h1 h2
        subst h1
        simp only [Bool.and_eq_true, decide_eq_true_eq] at hcond
        constructor
        · simp only [List.length_cons]
          omega
        · intro x hx
          rcases List.mem_cons.mp hx with hx | hx
          · subst hx
            simp only [Bool.and_eq_true] at hbnd
            simp [isLetter, hbnd.2]
          · exact List.mem_takeWhile_imp hx
      · split at h
        · rename_i hcond2
          injection h with h1
          injection h1 with h1 h2
          subst h1
          simp only [Bool.and_eq_true, decide_eq_true_eq] at hcond2
          refine ⟨hcond2.1, fun x hx => ?_⟩
          have := List.mem_takeWhile_imp hx
          simp [isLetter, this]
        · exact absurd h (by simp)
    · exact absurd h (by simp)

theorem matchCompany_spec {prev : Option Char} {s tok : Str} {L : Nat}
    (h : matchCompany prev s = some (tok, L)) :
    (∀ c ∈ tok, isCompanyChar c = true ∨ isSpaceJS c = true) ∧
      ∃ a t, tok = a :: t ∧ isCompanyChar a = true := by
  unfold matchCompany at h
  set pre := (if s.take 4 = ['주', '식', '회', '사'] then some 4
    else if s.take 1 = ['㈜'] then some 1 else none) with hpre
  clear_value pre
  match pre with
  | none => exact absurd h (by simp)
  | some p =>
    simp only at h
    split at h
    · exact absurd h (by simp)
    · rename_i hg1
      have hg1ne : ¬(s.drop p |>.drop
          ((s.drop p).takeWhile isSpaceJS).length |>.takeWhile isCompanyChar) = [] := by
        simpa [List.isEmpty_iff] using hg1
      split at h
      · injection h with h1
        injection h1 with h1 h2
        subst h1
        constructor
        · intro c hc
          rcases List.mem_append.mp hc with hc | hc
          rcases List.mem_append.mp hc with hc | hc
          · exact Or.inl (List.mem_takeWhile_imp hc)
          · exact Or.inr (List.mem_takeWhile_imp hc)
          · exact Or.inl (List.mem_takeWhile_imp hc)
        · match hg :
            (s.drop p |>.drop ((s.drop p).takeWhile isSpaceJS).length
              |>.takeWhile isCompanyChar) with
          | [] => exact absurd hg hg1ne
          | a :: t =>
            refine ⟨a, _, by rw [List.cons_append, List.cons_append], ?_⟩
            have : a ∈ (s.drop p |>.drop ((s.drop p).takeWhile isSpaceJS).length
              |>.takeWhile isCompanyChar) := by rw [hg]; simp
            exact List.mem_takeWhile_imp this
      · injection h with h1
        injection h1 with h1 h2
        subst h1
        constructor
        · intro c hc
          exact Or.inl (List.mem_takeWhile_imp hc)
        · match hg :
            (s.drop p |>.drop ((s.drop p).takeWhile isSpaceJS).length
              |>.takeWhile isCompanyChar) with
          | [] => exact absurd hg hg1ne
          | a :: t =>
            refine ⟨a, t, rfl, ?_⟩
            have : a ∈ (s.drop p |>.drop ((s.drop p).takeWhile isSpaceJS).length
              |>.takeWhile isCompanyChar) := by rw [hg]; simp
            exact List.mem_takeWhile_imp this

theorem matchAcronym_spec {prev : Option Char} {s tok : Str} {L : Nat}
    (h : matchAcronym prev s = some (tok, L)) :
    2 ≤ tok.length ∧ ∀ c ∈ tok, isUpper c = true := by
  unfold matchAcronym at h
  simp only at h
  split at h
  · rename_i hcond
    injection h with h1
    injection h1 with h1 h2
    subst h1
    simp only [Bool.and_eq_true, decide_eq_true_eq] at hcond
    exact ⟨hcond.1.2, fun c hc => List.mem_takeWhile_imp hc⟩
  · exact absurd h (by simp)


theorem parseReps_spec : ∀ (fuel : Nat) (s : Str) (r : Str × Char × Str),
    r ∈ parseReps fuel s →
    (∀ c ∈ r.1, isSpaceJS c = true) ∧ isUpper r.2.1 = true ∧
      (∀ c ∈ r.2.2, isLower c = true) ∧ r.2.2 ≠ [] := by
  intro fuel
  induction fuel with
  | zero => intro s r h; simp [parseReps] at h
  | succ n ih =>
    intro s r h
    simp only [parseReps] at h
    split at h
    · rename_i hw
      match hd : s.drop (s.takeWhile isSpaceJS).length with
      | [] => rw [hd] at h; simp at h
      | u :: rest2 =>
        rw [hd] at h
        simp only at h
        split at h
        · rename_i hu
          split at h
          · rename_i hlo
            rcases List.mem_cons.mp h with h | h
            · subst h
              refine ⟨fun c hc => List.mem_takeWhile_imp hc, hu, ?_, ?_⟩
              · exact fun c hc => List.mem_takeWhile_imp hc
              · intro he
                have he2 : List.takeWhile isLower rest2 = [] := he
                rw [he2] at hlo
                simp at hlo
            · exact ih _ _ h
          · simp at h
        · simp at h
    · simp at h

theorem repsFlat_chars {rs : List (Str × Char × Str)}
    (hrs : ∀ r ∈ rs, (∀ c ∈ r.1, isSpaceJS c = true) ∧ isUpper r.2.1 = true ∧
      (∀ c ∈ r.2.2, isLower c = true) ∧ r.2.2 ≠ []) :
    ∀ c ∈ repsFlat rs, isLetter c = true ∨ isSpaceJS c = true := by
  induction rs with
  | nil => simp [repsFlat]
  | cons r rest ih =>
    intro c hc
    simp only [repsFlat] at hc
    have hr := hrs r (by simp)
    rcases List.mem_append.mp hc with hc | hc
    · rcases List.mem_append.mp hc with hc | hc
      · exact Or.inr (hr.1 c hc)
      · rcases List.mem_cons.mp hc with hc | hc
        · subst hc
          exact Or.inl (by simp [isLetter, hr.2.1])
        · exact Or.inl (by simp [isLetter, hr.2.2.1 c hc])
    · exact ih (fun r h => hrs r (List.mem_cons_of_mem _ h)) c hc

theorem matchCapitalized_spec {prev : Option Char} {s tok : Str} {L : Nat}
    (h : matchCapitalized prev s = some (tok, L)) :
    (∃ a t, tok = a :: t ∧ isSpaceJS a = false ∧
      ∃ b ∈ t, isSpaceJS b = false ∧ isDigit b = false) ∧
    (∀ c ∈ tok, isLetter c = true ∨ isSpaceJS c = true) := by
  unfold matchCapitalized at h
  match s with
  | [] => exact absurd h (by simp)
  | c :: rest =>
    simp only at h
    split at h
    · rename_i hbnd
      simp only [Bool.and_eq_true] at hbnd
      split at h
      · rename_i hm1
        have hm1mem : ∀ x ∈ rest.takeWhile isLower, isLower x = true :=
          fun x hx => List.mem_takeWhile_imp hx
        have hm1ne : rest.takeWhile isLower ≠ [] := by
          intro he
          rw [he] at hm1
          simp at hm1
        have upper_c : isUpper c = true := hbnd.2
        have main : ∀ (rs : List (Str × Char × Str)),
            (∀ r ∈ rs, (∀ x ∈ r.1, isSpaceJS x = true) ∧ isUpper r.2.1 = true ∧
              (∀ x ∈ r.2.2, isLower x = true) ∧ r.2.2 ≠ []) →
            tok = (c :: rest.takeWhile isLower) ++ repsFlat rs →
            (∃ a t, tok = a :: t ∧ isSpaceJS a = false ∧
              ∃ b ∈ t, isSpaceJS b = false ∧ isDigit b = false) ∧
            (∀ x ∈ tok, isLetter x = true ∨ isSpaceJS x = true) := by
          intro rs hrs htok
          rw [List.cons_append] at htok
          constructor
          · refine ⟨c, _, htok, ?_, ?_⟩
            · exact isSpaceJS_false_of_upper c upper_c
            · match hm : rest.takeWhile isLower with
              | [] => exact absurd hm hm1ne
              | b :: bs =>
                have hb : isLower b = true := hm1mem b (by rw [hm]; simp)
                refine ⟨b, by simp, isSpaceJS_false_of_lower b hb,
                  isDigit_false_of_lower b hb⟩
          · intro x hx
            rw [htok] at hx
            rcases List.mem_cons.mp hx with hx | hx
            · subst hx
              exact Or.inl (by simp [isLetter, upper_c])
            · rcases List.mem_append.mp hx with hx | hx
              · exact Or.inl (by simp [isLetter, hm1mem x hx])
              · exact repsFlat_chars hrs x hx
        split at h
        · exact absurd h (by simp)
        · split at h
          · injection h with h1
            injection h1 with h1 h2
            exact main _ (fun r hr => parseReps_spec _ _ r hr) h1.symm
          · split at h
            · injection h with h1
              injection h1 with h1 h2
              refine main _ (fun r hr => ?_) h1.symm
              exact parseReps_spec _ _ r (List.dropLast_sublist _ |>.subset hr)
            · exact absurd h (by simp)
      · exact absurd h (by simp)
    · exact absurd h (by simp)


theorem orElse_eq_some_cases {α : Type} {a : Option α} {f : Unit → Option α}
    {x : α} (h : a.orElse f = some x) : a = some x ∨ f () = some x := by
  cases a with
  | none => right; simpa [Option.orElse] using h
  | some v => left; simpa [Option.orElse] using h

theorem matchMoney_spec {prev : Option Char} {s tok : Str} {L : Nat}
    (h : matchMoney prev s = some (tok, L)) :
    2 ≤ tok.length ∧ ∃ c ∈ tok, isDigit c = false := by
  unfold matchMoney at h
  simp only at h
  split at h
  · exact absurd h (by simp)
  · rename_i hd
    have hdlen : 1 ≤ (s.takeWhile isDigit).length := by
      cases hq : s.takeWhile isDigit with
      | nil => rw [hq] at hd; simp at hd
      | cons x xs => simp
    split at h
    · exact absurd h (by simp)
    · rename_i u t2
      split at h
      · split at h
        · exact absurd h (by simp)
        · rename_i w t3
          split at h
          · rename_i hw
            subst hw
            injection h with h1
            injection h1 with h1 h2
            subst h1
            exact ⟨by simp, '원', by simp, by decide⟩
          · exact absurd h (by simp)
      · split at h
        · rename_i hu
          subst hu
          injection h with h1
          injection h1 with h1 h2
          subst h1
          refine ⟨?_, '원', by simp, by decide⟩
          simp only [List.length_append, List.length_cons, List.length_nil]
          omega
        · exact absurd h (by simp)

theorem dateMD_spec {s tok : Str} {k1 k2 L : Nat}
    (h : dateMD s k1 k2 = some (tok, L)) :
    2 ≤ tok.length ∧ ∃ c ∈ tok, isDigit c = false := by
  unfold dateMD at h
  simp only at h
  split at h
  · split at h
    · exact absurd h (by simp)
    · rename_i m t
      split at h
      · split at h
        · split at h
          · exact absurd h (by simp)
          · rename_i d rest
            split at h
            · rename_i hd
              subst hd
              injection h with h1
              injection h1 with h1 h2
              subst h1
              refine ⟨?_, '일', by simp, by decide⟩
              simp only [List.length_append, List.length_cons]
              omega
            · exact absurd h (by simp)
        · exact absurd h (by simp)
      · exact absurd h (by simp)
  · exact absurd h (by simp)

theorem matchDate_spec {prev : Option Char} {s tok : Str} {L : Nat}
    (h : matchDate prev s = some (tok, L)) :
    2 ≤ tok.length ∧ ∃ c ∈ tok, isDigit c = false := by
  unfold matchDate at h
  simp only at h
  split at h
  · rename_i r halt1
    split at halt1
    · rename_i hcond4
      simp only [Bool.and_eq_true, decide_eq_true_eq] at hcond4
      split at halt1
      · exact absurd halt1 (by simp)
      · rename_i y rest
        split at halt1
        · rename_i hy
          subst hy
          injection halt1 with h1
          have h3 := h1.trans (Option.some.inj h)
          have h4 : List.take 4 s ++ ['년'] = tok := congrArg Prod.fst h3
          subst h4
          refine ⟨?_, '년', by simp, by decide⟩
          simp only [List.length_append, List.length_cons, List.length_nil,
            hcond4.1]
          omega
        · exact absurd halt1 (by simp)
    · exact absurd halt1 (by simp)
  · rename_i halt1
    rcases orElse_eq_some_cases h with h | h
    rcases orElse_eq_some_cases h with h | h
    rcases orElse_eq_some_cases h with h | h
    all_goals exact dateMD_spec h

theorem matchLargeNum_spec {prev : Option Char} {s tok : Str} {L : Nat}
    (h : matchLargeNum prev s = some (tok, L)) :
    2 ≤ tok.length ∧ ∃ c ∈ tok, isDigit c = false := by
  unfold matchLargeNum at h
  simp only at h
  split at h
  · exact absurd h (by simp)
  · rename_i hd
    have hdlen : 1 ≤ (s.takeWhile isDigit).length := by
      cases hq : s.takeWhile isDigit with
      | nil => rw [hq] at hd; simp at hd
      | cons x xs => simp
    match hdrop : (s.drop (s.takeWhile isDigit).length).drop
        (4 * parseThousands (s.drop (s.takeWhile isDigit).length).length
          (s.drop (s.takeWhile isDigit).length)) with
    | [] => rw [hdrop] at h; exact absurd h (by simp)
    | u :: t3 =>
      rw [hdrop] at h
      simp only at h
      split at h
      · rename_i hu
        injection h with h1
        injection h1 with h1 h2
        subst h1
        refine ⟨by simp; omega, u, by simp, ?_⟩
        simp only [Bool.or_eq_true, decide_eq_true_eq] at hu
        rcases hu with ((hu | hu) | hu) | hu <;> subst hu <;> decide
      · exact absurd h (by simp)


/-! ## Shape of the candidates produced by each extraction mode -/

theorem isArrayIndex_false {k : Str} (h : ∃ c ∈ k, isDigit c = false) :
    isArrayIndex k = false := by
  obtain ⟨c, hc, hcd⟩ := h
  have hall : k.all isDigit = false := by
    cases ha : k.all isDigit with
    | false => rfl
    | true =>
      have := List.all_eq_true.mp ha c hc
      rw [this] at hcd
      exact absurd hcd (by simp)
  unfold isArrayIndex
  rw [hall]
  simp

theorem gk_elem {t k : Str} (h : k ∈ extractGeneralKeywords t) :
    2 ≤ k.length ∧
      (((∀ c ∈ k, isHangul c = true) ∧ k ∉ stopwordsKo) ∨
        ((∀ c ∈ k, isLetter c = true) ∧ k.map Char.toLower ∉ stopwordsEn)) := by
  unfold extractGeneralKeywords at h
  rcases List.mem_append.mp h with h | h
  · have h2 := List.mem_filter.mp h
    obtain ⟨hmem, hp⟩ := h2
    simp only [decide_eq_true_eq] at hp
    obtain ⟨r, hr, hk⟩ := List.mem_map.mp hmem
    have hrspec : 2 ≤ r.length ∧ ∀ c ∈ r, isHangul c = true :=
      mem_scan (fun prev s tok L hm => matchKo_spec hm) hr
    refine ⟨hp.1, Or.inl ⟨?_, hp.2⟩⟩
    intro c hc
    rw [← hk] at hc
    exact hrspec.2 c (mem_cleanKoreanWord hc)
  · have h2 := List.mem_filter.mp h
    obtain ⟨hmem, hp⟩ := h2
    simp only [decide_eq_true_eq] at hp
    have hspec : 2 ≤ k.length ∧ ∀ c ∈ k, isLetter c = true :=
      mem_scan (fun prev s tok L hm => matchEn_spec hm) hmem
    exact ⟨hspec.1, Or.inr ⟨hspec.2, hp⟩⟩

theorem pn_elem {t k : Str} (h : k ∈ extractProperNouns t) :
    2 ≤ k.length ∧ ∀ c ∈ k, isDigit c = false := by
  unfold extractProperNouns at h
  have h2 := List.mem_filter.mp h
  obtain ⟨hmem, hpos⟩ := h2
  simp only [decide_eq_true_eq] at hpos
  obtain ⟨q, hq, hk⟩ := List.mem_map.mp hmem
  rcases List.mem_append.mp hq with hq | hq
  rcases List.mem_append.mp hq with hq | hq
  · -- company captures: already trimmed with length ≥ 2; trim is idempotent
    have h3 := List.mem_filter.mp hq
    obtain ⟨hmem2, hlen2⟩ := h3
    simp only [decide_eq_true_eq] at hlen2
    obtain ⟨q0, hq0, hqt⟩ := List.mem_map.mp hmem2
    have hspec :
        (∀ c ∈ q0, isCompanyChar c = true ∨ isSpaceJS c = true) ∧
          ∃ a t0, q0 = a :: t0 ∧ isCompanyChar a = true :=
      mem_scan (fun prev s tok L hm => matchCompany_spec hm) hq0
    have hkq : k = q := by rw [← hk]; rw [← hqt, trim_idem, hqt]
    refine ⟨by rw [hkq]; exact hlen2, ?_⟩
    intro c hc
    rw [hkq] at hc
    have hcq0 : c ∈ q0 := by
      rw [← hqt] at hc
      exact mem_trim hc
    rcases hspec.1 c hcq0 with hco | hco
    · simp only [isCompanyChar, Bool.or_eq_true] at hco
      rcases hco with hco | hco
      · exact isDigit_false_of_hangul c hco
      · exact isDigit_false_of_letter c hco
    · cases hd : isDigit c with
      | false => rfl
      | true =>
        have h1 := digit_range hd
        have h2 := @isSpaceJS_false_of_range c (by omega) (by omega)
        rw [h2] at hco
        exact absurd hco (by simp)
  · -- capitalized multi-word names
    have hspec := mem_scan (fun prev s tok L hm => matchCapitalized_spec hm) hq
    obtain ⟨⟨a, t0, hq0, ha, b, hb, hbs, hbd⟩, hchars⟩ := hspec
    constructor
    · rw [← hk, hq0]
      exact trim_length_two ha hb hbs
    · intro c hc
      rw [← hk] at hc
      have hcq : c ∈ q := mem_trim hc
      rcases hchars c hcq with hco | hco
      · exact isDigit_false_of_letter c hco
      · cases hd : isDigit c with
        | false => rfl
        | true =>
          have h1 := digit_range hd
          have h2 := @isSpaceJS_false_of_range c (by omega) (by omega)
          rw [h2] at hco
          exact absurd hco (by simp)
  · -- acronyms
    have hspec := mem_scan (fun prev s tok L hm => matchAcronym_spec hm) hq
    have hts : trim q = q := trim_eq_self (fun c hc =>
      isSpaceJS_false_of_upper c (hspec.2 c hc))
    have hkq : k = q := by rw [← hk, hts]
    refine ⟨by rw [hkq]; exact hspec.1, ?_⟩
    intro c hc
    rw [hkq] at hc
    exact isDigit_false_of_upper c (hspec.2 c hc)

theorem nums_elem {t k : Str} (h : k ∈ extractNumbers t) :
    2 ≤ k.length ∧ ∃ c ∈ k, isDigit c = false := by
  unfold extractNumbers at h
  rcases List.mem_append.mp h with h | h
  rcases List.mem_append.mp h with h | h
  · exact mem_scan (fun prev s tok L hm => matchMoney_spec hm) h
  · exact mem_scan (fun prev s tok L hm => matchDate_spec hm) h
  · exact mem_scan (fun prev s tok L hm => matchLargeNum_spec hm) h

/-- Every candidate in the weighted sequence has length ≥ 2 and is not a
JS array-index key. -/
theorem weighted_elem {text title k : Str}
    (h : k ∈ weightedKeywords text title) :
    2 ≤ k.length ∧ isArrayIndex k = false := by
  have main : k ∈ extractGeneralKeywords title ∨ k ∈ extractProperNouns text ∨
      k ∈ extractGeneralKeywords text ∨ k ∈ extractNumbers text := by
    unfold weightedKeywords at h
    rcases List.mem_append.mp h with h | h
    rcases List.mem_append.mp h with h | h
    rcases List.mem_append.mp h with h | h
    · split at h
      · simp at h
      · rcases List.mem_append.mp h with h | h
        rcases List.mem_append.mp h with h | h
        all_goals exact Or.inl h
    · rcases List.mem_append.mp h with h | h
      all_goals exact Or.inr (Or.inl h)
    · exact Or.inr (Or.inr (Or.inl h))
    · exact Or.inr (Or.inr (Or.inr h))
  have gk_case : ∀ t0 : Str, k ∈ extractGeneralKeywords t0 →
      2 ≤ k.length ∧ isArrayIndex k = false := by
    intro t0 hk
    obtain ⟨hlen, hcase⟩ := gk_elem hk
    refine ⟨hlen, isArrayIndex_false ?_⟩
    match hm : k with
    | [] => simp at hlen
    | c :: rest =>
      rcases hcase with ⟨hch, _⟩ | ⟨hch, _⟩
      · exact ⟨c, by simp, isDigit_false_of_hangul c (hch c (by simp))⟩
      · exact ⟨c, by simp, isDigit_false_of_letter c (hch c (by simp))⟩
  rcases main with h | h | h | h
  · exact gk_case title h
  · obtain ⟨hlen, hch⟩ := pn_elem h
    refine ⟨hlen, isArrayIndex_false ?_⟩
    match hm : k with
    | [] => simp at hlen
    | c :: rest => exact ⟨c, by simp, hch c (by simp)⟩
  · exact gk_case text h
  · obtain ⟨hlen, hex⟩ := nums_elem h
    exact ⟨hlen, isArrayIndex_false hex⟩


/-! ## The frequency table -/

theorem idxOf_cons (b : Str) (l : List Str) (a : Str) :
    (b :: l).indexOf a = if b = a then 0 else l.indexOf a + 1 := by
  by_cases hba : b = a
  · simp [List.indexOf, List.findIdx_cons, beq_iff_eq, hba]
  · have hf : (b == a) = false := beq_eq_false_iff_ne.mpr hba
    simp [List.indexOf, List.findIdx_cons, hf, hba]

theorem idx_append_left {a : Str} : ∀ {l : List Str} (t : List Str), a ∈ l →
    (l ++ t).indexOf a = l.indexOf a := by
  intro l
  induction l with
  | nil => intro t h; simp at h
  | cons b bs ih =>
    intro t h
    rw [List.cons_append, idxOf_cons, idxOf_cons]
    by_cases hba : b = a
    · simp [hba]
    · rw [if_neg hba, if_neg hba]
      rcases List.mem_cons.mp h with h | h
      · exact absurd h.symm hba
      · rw [ih t h]

theorem idx_append_new {a : Str} : ∀ {l : List Str}, a ∉ l →
    (l ++ [a]).indexOf a = l.length := by
  intro l
  induction l with
  | nil => intro h; simp [idxOf_cons]
  | cons b bs ih =>
    intro h
    rw [List.cons_append, idxOf_cons]
    have hba : b ≠ a := fun he => h (by simp [he])
    rw [if_neg hba, ih (fun hm => h (List.mem_cons_of_mem _ hm))]
    simp

theorem idx_lt_of_mem {a : Str} : ∀ {l : List Str}, a ∈ l →
    l.indexOf a < l.length := by
  intro l
  induction l with
  | nil => intro h; simp at h
  | cons b bs ih =>
    intro h
    rw [idxOf_cons]
    by_cases hba : b = a
    · simp [hba]
    · rw [if_neg hba]
      rcases List.mem_cons.mp h with h | h
      · exact absurd h.symm hba
      · simpa using ih h

theorem countFrequency_append_singleton (ks : List Str) (k : Str) :
    countFrequency (ks ++ [k]) = bump (countFrequency ks) k := by
  unfold countFrequency
  rw [List.foldl_append]
  rfl

/-- The frequency table of `ks` holds exactly the distinct members of `ks`
in first-occurrence order, each with its multiplicity in `ks`. -/
theorem countFrequency_inv (ks : List Str) :
    (∀ p ∈ countFrequency ks, p.1 ∈ ks ∧ p.2 = ks.count p.1) ∧
    (∀ x ∈ ks, x ∈ (countFrequency ks).map Prod.fst) ∧
    List.Pairwise (fun p q : Str × Nat =>
      ks.indexOf p.1 < ks.indexOf q.1) (countFrequency ks) := by
  induction ks using List.reverseRecOn with
  | nil => refine ⟨by simp [countFrequency], by simp, by simp [countFrequency]⟩
  | append_singleton ks k ih =>
    obtain ⟨ih1, ih2, ih3⟩ := ih
    rw [countFrequency_append_singleton]
    unfold bump
    split
    · rename_i hk
      -- existing key: entries are updated in place, keys and order unchanged
      refine ⟨?_, ?_, ?_⟩
      · intro p' hp'
        obtain ⟨p, hp, hupd⟩ := List.mem_map.mp hp'
        have hmem := (ih1 p hp).1
        have hcnt := (ih1 p hp).2
        by_cases hpk : p.1 = k
        · rw [if_pos hpk] at hupd
          subst hupd
          refine ⟨List.mem_append_left _ hmem, ?_⟩
          rw [List.count_append, hcnt, hpk]
          simp
        · rw [if_neg hpk] at hupd
          subst hupd
          refine ⟨List.mem_append_left _ hmem, ?_⟩
          rw [List.count_append, hcnt]
          have : List.count p.1 [k] = 0 := by
            rw [List.count_eq_zero]
            simpa using hpk
          rw [this]
          simp
      · intro x hx
        have hkeys : (List.map Prod.fst (List.map
            (fun p => if p.1 = k then (p.1, p.2 + 1) else p)
            (countFrequency ks))) = List.map Prod.fst (countFrequency ks) := by
          rw [List.map_map]
          apply List.map_congr_left
          intro p hp
          by_cases hpk : p.1 = k
          · simp [hpk]
          · simp [hpk]
        rw [hkeys]
        rcases List.mem_append.mp hx with hx | hx
        · exact ih2 x hx
        · have : x = k := by simpa using hx
          subst this
          exact hk
      · rw [List.pairwise_map]
        refine List.Pairwise.imp_of_mem ?_ ih3
        intro p q hp hq hlt
        have hpk : (if p.1 = k then (p.1, p.2 + 1) else p).1 = p.1 := by
          split <;> rfl
        have hqk : (if q.1 = k then (q.1, q.2 + 1) else q).1 = q.1 := by
          split <;> rfl
        simp only [hpk, hqk]
        rw [idx_append_left [k] (ih1 p hp).1, idx_append_left [k] (ih1 q hq).1]
        exact hlt
    · rename_i hk
      -- new key: appended at the end
      have hknotin : k ∉ ks := fun hmem => hk (ih2 k hmem)
      refine ⟨?_, ?_, ?_⟩
      · intro p hp
        rcases List.mem_append.mp hp with hp | hp
        · have hmem := (ih1 p hp).1
          have hcnt := (ih1 p hp).2
          have hpk : p.1 ≠ k := fun he => hknotin (he ▸ hmem)
          refine ⟨List.mem_append_left _ hmem, ?_⟩
          rw [List.count_append, hcnt]
          have : List.count p.1 [k] = 0 := by
            rw [List.count_eq_zero]
            simpa using hpk
          rw [this]
          simp
        · have : p = (k, 1) := by simpa using hp
          subst this
          refine ⟨List.mem_append_right _ (by simp), ?_⟩
          rw [List.count_append]
          rw [List.count_eq_zero.mpr hknotin]
          simp
      · intro x hx
        rcases List.mem_append.mp hx with hx | hx
        · rw [List.map_append]
          exact List.mem_append_left _ (ih2 x hx)
        · have : x = k := by simpa using hx
          subst this
          rw [List.map_append]
          exact List.mem_append_right _ (by simp)
      · rw [List.pairwise_append]
        refine ⟨?_, by simp, ?_⟩
        · refine List.Pairwise.imp_of_mem ?_ ih3
          intro p q hp hq hlt
          rw [idx_append_left [k] (ih1 p hp).1, idx_append_left [k] (ih1 q hq).1]
          exact hlt
        · intro p hp q hq
          have : q = (k, 1) := by simpa using hq
          subst this
          have h1 : (ks ++ [k]).indexOf p.1 = ks.indexOf p.1 :=
            idx_append_left [k] (ih1 p hp).1
          have h2 : (ks ++ [k]).indexOf k = ks.length := idx_append_new hknotin
          rw [h1, h2]
          exact idx_lt_of_mem (ih1 p hp).1


/-! ## The stable sort -/

theorem insertBy_perm (r : (Str × Nat) → (Str × Nat) → Bool) (x : Str × Nat) :
    ∀ (s : List (Str × Nat)), List.Perm (insertBy r x s) (x :: s) := by
  intro s
  induction s with
  | nil => simp [insertBy]
  | cons y ys ih =>
    simp only [insertBy]
    split
    · exact List.Perm.refl _
    · exact (List.Perm.cons y ih).trans (List.Perm.swap x y ys)

theorem sortBy_perm (r : (Str × Nat) → (Str × Nat) → Bool) :
    ∀ (l : List (Str × Nat)), List.Perm (sortBy r l) l := by
  intro l
  induction l with
  | nil => simp [sortBy]
  | cons x xs ih =>
    exact (insertBy_perm r x (sortBy r xs)).trans (List.Perm.cons x ih)

theorem mem_insertBy {r : (Str × Nat) → (Str × Nat) → Bool} {x z : Str × Nat}
    {s : List (Str × Nat)} (h : z ∈ insertBy r x s) : z = x ∨ z ∈ s := by
  have := (insertBy_perm r x s).mem_iff.mp h
  simpa using this

theorem countGe_true {x y : Str × Nat} (h : countGe x y = true) : y.2 ≤ x.2 :=
  Nat.le_of_ble_eq_true h

theorem countGe_false {x y : Str × Nat} (h : countGe x y = false) :
    x.2 < y.2 := by
  have : ¬(y.2 ≤ x.2) := fun hle => by
    rw [show countGe x y = Nat.ble y.2 x.2 from rfl, Nat.ble_eq_true_of_le hle] at h
    exact absurd h (by simp)
  omega

theorem pairwise_ge_insertBy {x : Str × Nat} : ∀ {s : List (Str × Nat)},
    List.Pairwise (fun p q : Str × Nat => q.2 ≤ p.2) s →
    List.Pairwise (fun p q : Str × Nat => q.2 ≤ p.2) (insertBy countGe x s) := by
  intro s
  induction s with
  | nil => intro _; simp [insertBy]
  | cons y ys ih =>
    intro hs
    simp only [insertBy]
    split
    · rename_i hr
      have hyx : y.2 ≤ x.2 := countGe_true hr
      refine List.Pairwise.cons ?_ hs
      intro z hz
      rcases List.mem_cons.mp hz with hz | hz
      · subst hz; exact hyx
      · exact Nat.le_trans (List.rel_of_pairwise_cons hs hz) hyx
    · rename_i hr
      have hxy : x.2 < y.2 := countGe_false (Bool.eq_false_iff.mpr hr)
      refine List.Pairwise.cons ?_ (ih hs.of_cons)
      intro z hz
      rcases mem_insertBy hz with hz | hz
      · subst hz; omega
      · exact List.rel_of_pairwise_cons hs hz

theorem pairwise_ge_sortBy : ∀ (l : List (Str × Nat)),
    List.Pairwise (fun p q : Str × Nat => q.2 ≤ p.2) (sortBy countGe l) := by
  intro l
  induction l with
  | nil => simp [sortBy]
  | cons x xs ih => exact pairwise_ge_insertBy ih

/-- Stability of the insertion: inserting an element that originally came
before the whole list preserves any relation `S` that is vacuous on pairs
the comparator would strictly reorder. -/
theorem pairwise_tie_insertBy {r : (Str × Nat) → (Str × Nat) → Bool}
    {S : (Str × Nat) → (Str × Nat) → Prop}
    (h1 : ∀ y x : Str × Nat, r x y = false → S y x) {x : Str × Nat} :
    ∀ {s : List (Str × Nat)}, (∀ z ∈ s, S x z) → List.Pairwise S s →
    List.Pairwise S (insertBy r x s) := by
  intro s
  induction s with
  | nil => intro _ _; simp [insertBy]
  | cons y ys ih =>
    intro hx hs
    simp only [insertBy]
    split
    · exact List.Pairwise.cons hx hs
    · rename_i hr
      refine List.Pairwise.cons ?_
        (ih (fun z hz => hx z (List.mem_cons_of_mem _ hz)) hs.of_cons)
      intro z hz
      rcases mem_insertBy hz with hz | hz
      · rw [hz]
        exact h1 y x (Bool.eq_false_iff.mpr hr)
      · exact List.rel_of_pairwise_cons hs hz

theorem pairwise_tie_sortBy {r : (Str × Nat) → (Str × Nat) → Bool}
    {S : (Str × Nat) → (Str × Nat) → Prop}
    (h1 : ∀ y x : Str × Nat, r x y = false → S y x) :
    ∀ {l : List (Str × Nat)}, List.Pairwise S l →
    List.Pairwise S (sortBy r l) := by
  intro l
  induction l with
  | nil => intro _; simp [sortBy]
  | cons x xs ih =>
    intro hl
    refine pairwise_tie_insertBy h1 ?_ (ih hl.of_cons)
    intro z hz
    have hzmem : z ∈ xs := (sortBy_perm r xs).mem_iff.mp hz
    exact List.rel_of_pairwise_cons hl hzmem


/-! ## Entry enumeration and slicing -/

theorem jsEntries_id {f : List (Str × Nat)}
    (h : ∀ p ∈ f, isArrayIndex p.1 = false) : jsEntries f = f := by
  unfold jsEntries
  have h1 : f.filter (fun p => isArrayIndex p.1) = [] := by
    rw [List.filter_eq_nil]
    intro p hp
    rw [h p hp]
    simp
  have h2 : f.filter (fun p => !isArrayIndex p.1) = f := by
    rw [List.filter_eq_self]
    intro p hp
    rw [h p hp]
    rfl
  rw [h1, h2]
  rfl

theorem jsSlice0_of_pos {l : List Str} {e : Int} (h : 0 < e) :
    jsSlice0 l e = l.take e.toNat := by
  unfold jsSlice0
  rw [if_neg (by omega)]

theorem jsSlice0_sublist (l : List Str) (e : Int) :
    List.Sublist (jsSlice0 l e) l := List.take_sublist _ _

/-! ## The extraction pipeline, simplified -/

/-- No keyword of the weighted sequence is an array-index object key, so
`Object.entries` returns the frequency table in insertion order. -/
theorem extractKeywords_pipeline (self : KeywordExtractor) (text title : Str) :
    self.extractKeywords text title =
      jsSlice0 ((sortBy countGe
        (countFrequency (weightedKeywords text title))).map Prod.fst)
        self.maxTags := by
  unfold KeywordExtractor.extractKeywords getTopKeywords
  rw [jsEntries_id]
  intro p hp
  have hmem := ((countFrequency_inv (weightedKeywords text title)).1 p hp).1
  exact (weighted_elem hmem).2

/-- Every returned keyword occurs in the weighted sequence. -/
theorem extractKeywords_mem {self : KeywordExtractor} {text title k : Str}
    (h : k ∈ self.extractKeywords text title) :
    k ∈ weightedKeywords text title := by
  rw [extractKeywords_pipeline] at h
  have h2 := (jsSlice0_sublist _ _).subset h
  obtain ⟨p, hp, hpk⟩ := List.mem_map.mp h2
  have hpf := (sortBy_perm countGe _).mem_iff.mp hp
  have := ((countFrequency_inv (weightedKeywords text title)).1 p hpf).1
  rw [← hpk]
  exact this


/-! ## Claim theorems -/

/-- C1: the claim says a non-positive `maxTags` is rejected with a
`ConfigurationError` at construction. The constructor has no validation
at all: evaluating the embedded code shows `new KeywordExtractor(0)`
succeeds, stores `0`, and `extractKeywords` then returns `[]`
(and `-1` is stored as `-1`, making `slice(0, -1)` drop the final
ranked keyword instead of truncating to a positive bound). -/
theorem C1_constructor_accepts_nonpositive :
    (KeywordExtractor.make 0).maxTags = 0 ∧
    (KeywordExtractor.make 0).extractKeywords ['A', 'B', ' ', 'C', 'D'] [] = [] ∧
    (KeywordExtractor.make (-1)).maxTags = -1 ∧
    (KeywordExtractor.make (-1)).extractKeywords ['A', 'B', ' ', 'C', 'D'] []
      = [['A', 'B']] := by
  refine ⟨rfl, by decide, rfl, by decide⟩

/-- C2 (counterexample): the text `"주식회사 결론"` puts the Korean
stopword `결론` into `extractKeywords`' output — the proper-noun path
(company captures, capitalized names, acronyms) performs no stopword
filtering. -/
theorem C2_counterexample_stopword_in_output :
    (KeywordExtractor.make 10).extractKeywords
        ['주', '식', '회', '사', ' ', '결', '론'] []
      = [['결', '론'], ['주', '식', '회', '사']] ∧
    ['결', '론'] ∈ stopwordsKo := by decide

/-- C2 (amended): general-keyword extraction never emits a stopword —
Script-A candidates are rejected by exact match after suffix stripping
and Script-B candidates by case-insensitive match — but proper-noun
extraction does not filter stopwords, so a stopword can still reach the
output of `extractKeywords` (see the counterexample). -/
theorem C2_general_keywords_no_stopwords (text k : Str)
    (h : k ∈ extractGeneralKeywords text) :
    k ∉ stopwordsKo ∧ (k.map Char.toLower) ∉ stopwordsEn := by
  obtain ⟨hlen, hcase⟩ := gk_elem h
  have hko : stopwordsKo.all
      (fun e => decide (0xAC00 ≤ ((e.head?.map Char.toNat).getD 0))) = true := by
    decide
  have hen : stopwordsEn.all
      (fun e => decide (((e.head?.map Char.toNat).getD 0) ≤ 122)) = true := by
    decide
  match hk : k with
  | [] => simp at hlen
  | c :: rest =>
    rcases hcase with ⟨hch, hst⟩ | ⟨hch, hst⟩
    · refine ⟨hst, ?_⟩
      intro hmem
      have h2 := List.all_eq_true.mp hen _ hmem
      rw [List.map_cons] at h2
      simp only [List.head?_cons, Option.map_some, Option.map_some',
        Option.getD_some, decide_eq_true_eq] at h2
      have hc : isHangul c = true := hch c (by simp)
      have hrange := hangul_range hc
      rw [toLower_of_hangul hc] at h2
      omega
    · refine ⟨?_, hst⟩
      intro hmem
      have h2 := List.all_eq_true.mp hko _ hmem
      simp only [List.head?_cons, Option.map_some, Option.map_some',
        Option.getD_some, decide_eq_true_eq] at h2
      have hc : isLetter c = true := hch c (by simp)
      have hr := letter_range hc
      rcases hr with hr | hr <;> omega

/-- C2 (witness for the amended claim). -/
theorem C2_witness :
    ['A', 'B', 'C'] ∈ extractGeneralKeywords ['A', 'B', 'C'] ∧
      (['A', 'B', 'C'] ∉ stopwordsKo ∧
        (['A', 'B', 'C'].map Char.toLower) ∉ stopwordsEn) :=
  ⟨by decide, C2_general_keywords_no_stopwords ['A', 'B', 'C'] ['A', 'B', 'C']
    (by decide)⟩

/-- C3 (counterexample): the whole two-character word `부터` is a listed
suffix, one replace pass erases it entirely, and the loop then stops:
`cleanKoreanWord("부터") = ""` — the stripper does not stop *before* a
removal that leaves fewer than two characters. -/
theorem C3_counterexample_strip_below_two :
    cleanKoreanWord ['부', '터'] = [] ∧ 2 ≤ (['부', '터'] : Str).length := by
  decide

theorem C3_aux : ∀ (n : Nat) (w : Str), w.length ≤ n → 2 ≤ w.length →
    2 ≤ (cleanKoreanWord w).length ∨
      ∃ u : Str, 2 ≤ u.length ∧ cleanKoreanWord w = stripOnce u ∧
        (stripOnce u).length < 2 := by
  intro n
  induction n with
  | zero =>
    intro w hw h2
    omega
  | succ m ih =>
    intro w hw h2
    rw [cleanKoreanWord_eq]
    rw [if_neg (by omega)]
    split
    · left
      exact h2
    · rename_i hne
      have hlt : (stripOnce w).length < w.length := stripOnce_length_lt w hne
      by_cases hs2 : 2 ≤ (stripOnce w).length
      · exact ih (stripOnce w) (by omega) hs2
      · right
        refine ⟨w, h2, ?_, by omega⟩
        rw [cleanKoreanWord_eq, if_pos (by omega)]

/-- C3 (amended): for an input of length ≥ 2 the stripper either keeps
length ≥ 2, or the final removal pass — applied to a string that still
had length ≥ 2 — dropped the length below 2 and stripping stopped
immediately; it never strips a string already shorter than 2. -/
theorem C3_strip_stops_below_two (w : Str) (h : 2 ≤ w.length) :
    2 ≤ (cleanKoreanWord w).length ∨
      ∃ u : Str, 2 ≤ u.length ∧ cleanKoreanWord w = stripOnce u ∧
        (stripOnce u).length < 2 :=
  C3_aux w.length w (Nat.le_refl _) h

/-- C3 (witness for the amended claim). -/
theorem C3_witness :
    2 ≤ (['회', '사', '는'] : Str).length ∧
      (2 ≤ (cleanKoreanWord ['회', '사', '는']).length ∨
        ∃ u : Str, 2 ≤ u.length ∧
          cleanKoreanWord ['회', '사', '는'] = stripOnce u ∧
          (stripOnce u).length < 2) :=
  ⟨by decide, C3_strip_stops_below_two ['회', '사', '는'] (by decide)⟩

/-- C8: suffix stripping is idempotent — `cleanKoreanWord` of its own
output returns the output unchanged (the output is shorter than two
characters, in which case the loop is not entered, or a fixed point of a
stripping pass). -/
theorem C8_clean_idempotent (w : Str) :
    cleanKoreanWord (cleanKoreanWord w) = cleanKoreanWord w := by
  rcases cleanKoreanWord_final w with h | h
  · rw [cleanKoreanWord_eq, if_pos h]
  · rw [cleanKoreanWord_eq]
    by_cases hl : (cleanKoreanWord w).length < 2
    · rw [if_pos hl]
    · rw [if_neg hl, if_pos h]


/-- C5: with a positive `maxTags = N`, `extractKeywords` returns at most
`N` keywords (`slice(0, N)` truncates the ranked list). -/
theorem C5_length_le_maxTags (self : KeywordExtractor)
    (h : 0 < self.maxTags) (text title : Str) :
    ((self.extractKeywords text title).length : Int) ≤ self.maxTags := by
  rw [extractKeywords_pipeline, jsSlice0_of_pos h]
  have h1 : (((sortBy countGe
      (countFrequency (weightedKeywords text title))).map Prod.fst).take
        self.maxTags.toNat).length ≤ self.maxTags.toNat := by
    rw [List.length_take]
    omega
  calc (((( sortBy countGe
      (countFrequency (weightedKeywords text title))).map Prod.fst).take
        self.maxTags.toNat).length : Int)
      ≤ (self.maxTags.toNat : Int) := by exact_mod_cast h1
    _ = self.maxTags := Int.toNat_of_nonneg (Int.le_of_lt h)

/-- C5 (witness). -/
theorem C5_witness :
    (0 : Int) < 3 ∧
      (((KeywordExtractor.make 3).extractKeywords
        ['A', 'B', ' ', 'C', 'D'] []).length : Int) ≤ 3 :=
  ⟨by decide, C5_length_le_maxTags (KeywordExtractor.make 3) (by decide)
    ['A', 'B', ' ', 'C', 'D'] []⟩

/-- C6: the returned keyword sequence never contains two equal strings:
the ranked list enumerates the distinct keys of the frequency table. -/
theorem C6_output_nodup (self : KeywordExtractor) (text title : Str) :
    (self.extractKeywords text title).Nodup := by
  rw [extractKeywords_pipeline]
  set ks := weightedKeywords text title
  have inv := countFrequency_inv ks
  have hne : List.Pairwise (fun p q : Str × Nat => p.1 ≠ q.1)
      (countFrequency ks) := by
    refine inv.2.2.imp ?_
    intro p q hlt heq
    rw [heq] at hlt
    omega
  have hsorted : List.Pairwise (fun p q : Str × Nat => p.1 ≠ q.1)
      (sortBy countGe (countFrequency ks)) :=
    ((sortBy_perm countGe (countFrequency ks)).pairwise_iff
      (fun h => Ne.symm h)).mpr hne
  have hmap : ((sortBy countGe (countFrequency ks)).map Prod.fst).Nodup := by
    rw [List.Nodup, List.pairwise_map]
    exact hsorted
  exact hmap.sublist (jsSlice0_sublist _ _)

/-- C10: every returned keyword is non-empty, indeed of length ≥ 2 —
each extraction mode only produces candidates of length ≥ 2. -/
theorem C10_min_length (self : KeywordExtractor) (text title k : Str)
    (h : k ∈ self.extractKeywords text title) : 2 ≤ k.length :=
  (weighted_elem (extractKeywords_mem h)).1

/-- C10 (witness). -/
theorem C10_witness :
    ['A', 'B'] ∈ (KeywordExtractor.make 10).extractKeywords ['A', 'B'] [] ∧
      2 ≤ (['A', 'B'] : Str).length :=
  ⟨by decide, C10_min_length (KeywordExtractor.make 10) ['A', 'B'] [] ['A', 'B']
    (by decide)⟩

/-- C7: the weighted sequence is the concatenation, in order, of the
title general keywords three times, the proper nouns twice, the body
general keywords once and the numeric tokens once; `extractKeywords`
feeds its frequency table to the ranker; and a term found only in the
title is counted exactly 3 × its number of title occurrences, both in
the weighted sequence and in the frequency table. -/
theorem C7_weighting (self : KeywordExtractor) (text title k : Str)
    (htitle : title ≠ []) (hpn : k ∉ extractProperNouns text)
    (hgk : k ∉ extractGeneralKeywords text) (hnum : k ∉ extractNumbers text) :
    weightedKeywords text title =
      (extractGeneralKeywords title ++ extractGeneralKeywords title ++
        extractGeneralKeywords title) ++
      (extractProperNouns text ++ extractProperNouns text) ++
      extractGeneralKeywords text ++ extractNumbers text ∧
    self.extractKeywords text title =
      getTopKeywords (countFrequency (weightedKeywords text title))
        self.maxTags ∧
    (weightedKeywords text title).count k =
      3 * (extractGeneralKeywords title).count k ∧
    (∀ n : Nat, (k, n) ∈ countFrequency (weightedKeywords text title) →
      n = 3 * (extractGeneralKeywords title).count k) := by
  have heq : weightedKeywords text title =
      (extractGeneralKeywords title ++ extractGeneralKeywords title ++
        extractGeneralKeywords title) ++
      (extractProperNouns text ++ extractProperNouns text) ++
      extractGeneralKeywords text ++ extractNumbers text := by
    unfold weightedKeywords
    rw [if_neg htitle]
  have hcount : (weightedKeywords text title).count k =
      3 * (extractGeneralKeywords title).count k := by
    rw [heq]
    simp only [List.count_append]
    rw [List.count_eq_zero.mpr hpn, List.count_eq_zero.mpr hgk,
      List.count_eq_zero.mpr hnum]
    omega
  refine ⟨heq, rfl, hcount, ?_⟩
  intro n hn
  have h3 : n = List.count k (weightedKeywords text title) :=
    ((countFrequency_inv (weightedKeywords text title)).1 (k, n) hn).2
  rw [h3, hcount]

/-- C7 (witness). -/
theorem C7_witness :
    (weightedKeywords [] ['A', 'B', 'C']).count ['A', 'B', 'C'] =
      3 * (extractGeneralKeywords ['A', 'B', 'C']).count ['A', 'B', 'C'] :=
  (C7_weighting (KeywordExtractor.make 10) [] ['A', 'B', 'C'] ['A', 'B', 'C']
    (by decide) (by decide) (by decide) (by decide)).2.2.1


/-- C4: the returned sequence is ordered by descending occurrence count
in the weighted sequence, and two entries with equal counts appear in
the order of their first occurrences in the weighted sequence (the JS
sort is stable, and `Object.entries` preserves the table's first-seen
insertion order). -/
theorem C4_ranking (self : KeywordExtractor) (text title : Str)
    (i j : Fin ((self.extractKeywords text title).length)) (hij : i < j) :
    (weightedKeywords text title).count
        ((self.extractKeywords text title).get j) ≤
      (weightedKeywords text title).count
        ((self.extractKeywords text title).get i) ∧
    ((weightedKeywords text title).count
        ((self.extractKeywords text title).get i) =
      (weightedKeywords text title).count
        ((self.extractKeywords text title).get j) →
      (weightedKeywords text title).indexOf
          ((self.extractKeywords text title).get i) <
        (weightedKeywords text title).indexOf
          ((self.extractKeywords text title).get j)) := by
  have hp : List.Pairwise (fun a b : Str =>
      (weightedKeywords text title).count b ≤
        (weightedKeywords text title).count a ∧
      ((weightedKeywords text title).count a =
        (weightedKeywords text title).count b →
        (weightedKeywords text title).indexOf a <
          (weightedKeywords text title).indexOf b))
      (self.extractKeywords text title) := by
    rw [extractKeywords_pipeline]
    refine List.Pairwise.sublist (jsSlice0_sublist _ _) ?_
    rw [List.pairwise_map]
    have inv := countFrequency_inv (weightedKeywords text title)
    have hge := pairwise_ge_sortBy
      (countFrequency (weightedKeywords text title))
    have hS2 : List.Pairwise (fun p q : Str × Nat => p.2 = q.2 →
        (weightedKeywords text title).indexOf p.1 <
          (weightedKeywords text title).indexOf q.1)
        (countFrequency (weightedKeywords text title)) :=
      inv.2.2.imp (fun hlt => fun _ => hlt)
    have htie := @pairwise_tie_sortBy countGe _
      (fun y x hf heq => absurd heq (by have := countGe_false hf; omega)) _ hS2
    have hand := hge.and htie
    refine List.Pairwise.imp_of_mem ?_ hand
    intro p q hp hq hr
    obtain ⟨hge', htie'⟩ := hr
    have hpc : p.2 = (weightedKeywords text title).count p.1 :=
      (inv.1 p ((sortBy_perm countGe _).mem_iff.mp hp)).2
    have hqc : q.2 = (weightedKeywords text title).count q.1 :=
      (inv.1 q ((sortBy_perm countGe _).mem_iff.mp hq)).2
    constructor
    · rw [← hpc, ← hqc]
      exact hge'
    · intro hceq
      apply htie'
      rw [hpc, hqc, hceq]
  exact List.pairwise_iff_get.mp hp i j hij

/-- C4 (witness): on the text `"AB CD"` both acronyms tie at weighted
count 3 and keep their first-seen order. -/
theorem C4_witness :
    (weightedKeywords ['A', 'B', ' ', 'C', 'D'] []).count
        (((KeywordExtractor.make 10).extractKeywords
          ['A', 'B', ' ', 'C', 'D'] []).get ⟨1, by decide⟩) ≤
      (weightedKeywords ['A', 'B', ' ', 'C', 'D'] []).count
        (((KeywordExtractor.make 10).extractKeywords
          ['A', 'B', ' ', 'C', 'D'] []).get ⟨0, by decide⟩) ∧
    ((weightedKeywords ['A', 'B', ' ', 'C', 'D'] []).count
        (((KeywordExtractor.make 10).extractKeywords
          ['A', 'B', ' ', 'C', 'D'] []).get ⟨0, by decide⟩) =
      (weightedKeywords ['A', 'B', ' ', 'C', 'D'] []).count
        (((KeywordExtractor.make 10).extractKeywords
          ['A', 'B', ' ', 'C', 'D'] []).get ⟨1, by decide⟩) →
      (weightedKeywords ['A', 'B', ' ', 'C', 'D'] []).indexOf
          (((KeywordExtractor.make 10).extractKeywords
            ['A', 'B', ' ', 'C', 'D'] []).get ⟨0, by decide⟩) <
        (weightedKeywords ['A', 'B', ' ', 'C', 'D'] []).indexOf
          (((KeywordExtractor.make 10).extractKeywords
            ['A', 'B', ' ', 'C', 'D'] []).get ⟨1, by decide⟩)) :=
  C4_ranking (KeywordExtractor.make 10) ['A', 'B', ' ', 'C', 'D'] []
    ⟨0, by decide⟩ ⟨1, by decide⟩ (by decide)

/-- C9: `refineTags` returns the candidate list unchanged whenever
refinement is disabled, the API key is empty, the fetch fails or returns
a non-ok response, or the response body is not a JSON array and contains
no quoted substrings; no failure is ever surfaced — the function is
total and returns a tag list on every path. -/
theorem C9_refine_fallback (self : AIService) (tags : List Str)
    (noteContent : Str) (outcome : FetchOutcome)
    (h : self.settings.useAI = false ∨ self.settings.openaiApiKey = [] ∨
      outcome = FetchOutcome.networkError ∨
      outcome = FetchOutcome.httpError ∨
      (∃ content p, outcome = FetchOutcome.success content p ∧
        (p = ParseOutcome.notArray ∨ p = ParseOutcome.err) ∧
        quotedMatches content = [])) :
    self.refineTags tags noteContent outcome = tags := by
  unfold AIService.refineTags
  rcases h with h | h | h | h | h
  · rw [h]
    simp
  · rw [h]
    simp
  · subst h
    split
    · rfl
    · rfl
  · subst h
    split
    · rfl
    · rfl
  · obtain ⟨content, pr, hoc, hpr, hqm⟩ := h
    subst hoc
    split
    · rfl
    · rcases hpr with hpr | hpr
      · subst hpr
        rfl
      · subst hpr
        simp only
        rw [hqm]
        simp

/-- C9 (witness): with refinement disabled the input is returned. -/
theorem C9_witness :
    AIService.refineTags
        ⟨⟨['k'], ['m'], false⟩⟩ [['a', 'b']] [] FetchOutcome.networkError
      = [['a', 'b']] :=
  C9_refine_fallback ⟨⟨['k'], ['m'], false⟩⟩ [['a', 'b']] []
    FetchOutcome.networkError (Or.inl rfl)

end TagGen
